import Mathlib

/-!
Verification of the insight computation pipeline of a CSV exploration
dashboard (src/app.py).  The script loads a table, optionally drops rows
with missing values, and then computes five "insights" in a single linear
pass (lines 63-114 of app.py):

1. most correlated feature pair (lines 67-71), reusing the matrix `corr`
   computed in the heatmap block at line 48;
2. column with most missing data (lines 74-77);
3. most imbalanced categorical column (lines 80-85);
4. column with most outliers by the IQR method (lines 88-97);
5. best-effort time trend (lines 99-114).

The embedding below models a table as an ordered list of named, kinded
columns whose cells are exact rationals, strings, dates or a missing
marker.  Floating point arithmetic of the original is modelled by exact
rational arithmetic; Pearson correlations, whose true values involve a
square root, are represented throughout by their squares (the map
x to x*x is a strictly monotone bijection on the nonnegative reals, so
comparisons with 1 and maximum selection are preserved).  Dates are
represented by the ordinal y*10000 + m*100 + d, which is strictly
monotone in the calendar order for the ISO dates the model parses.
Python exceptions (NameError from the undefined `corr` when there are no
numeric columns, ValueError from `idxmax`/`max` on an empty collection)
are modelled with `Except`.
-/

set_option maxRecDepth 100000

deriving instance DecidableEq for Except

namespace InsightsApp

/-- A cell of a column: an exact numeric value, a text value, a parsed
date (ordinal encoding), or a missing value (NaN/NaT/None in pandas). -/
inductive Cell : Type
  | num (q : ℚ)
  | str (s : String)
  | date (d : Nat)
  | missing
deriving DecidableEq

/-- The inferred dtype of a column, as reported by the loader.  The
pipeline trusts the declared kind (spec section 6). -/
inductive ColKind : Type
  | numeric
  | text
  | datetime
  | boolean
deriving DecidableEq

/-- A named column with its inferred kind and its cells. -/
structure Column : Type where
  name : String
  kind : ColKind
  cells : List Cell
deriving DecidableEq

/-- A table: an ordered sequence of named columns (app.py `df`). -/
structure Table : Type where
  cols : List Column
deriving DecidableEq

/-- `df.select_dtypes(include=np.number).columns` (app.py line 39),
in declaration order. -/
def numericCols (t : Table) : List Column :=
  t.cols.filter (fun c => c.kind == ColKind.numeric)

/-- `df.select_dtypes(include='object').columns` (app.py line 53),
in declaration order. -/
def categoricalCols (t : Table) : List Column :=
  t.cols.filter (fun c => c.kind == ColKind.text)

/-- Is the cell a missing value (pandas `isnull`). -/
def isMissing : Cell → Bool
  | Cell.missing => true
  | _ => false

/-- The non-missing numeric values of a list of cells, in row order.
Pandas statistical reductions (quantile, correlation) skip NaN. -/
def numsOf (cells : List Cell) : List ℚ :=
  cells.filterMap (fun c =>
    match c with
    | Cell.num q => some q
    | _ => none)

/-- The non-missing cells of a column (pandas `dropna` at cell level). -/
def nonMissing (cells : List Cell) : List Cell :=
  cells.filter (fun c => !(isMissing c))

/-- Per-column missing value count, `df[col].isnull().sum()`. -/
def missingCount (c : Column) : Nat :=
  c.cells.countP (fun x => isMissing x)

/-- Python `max(xs, key=key)` on a nonempty prefix element `x` and rest
`l`: the running best is replaced exactly when a later element has a
strictly greater key, so the result is the first element attaining the
maximum key. -/
def foldMax {α β : Type} [LinearOrder β] (key : α → β) (x : α) (l : List α) : α :=
  l.foldl (fun b y => if key b < key y then y else b) x

/-- Python `max(xs, key=key)` (and pandas `idxmax`): `none` models the
ValueError raised on an empty collection. -/
def pyMaxKey {α β : Type} [LinearOrder β] (key : α → β) : List α → Option α
  | [] => none
  | x :: xs => some (foldMax key x xs)

/-! ## Insight 2: column with most missing data (app.py lines 74-77) -/

/-- `df.isnull().sum()`: the per-column missing counts with their column
names, in declaration order. -/
def missingPairs (t : Table) : List (String × Nat) :=
  t.cols.map (fun c => (c.name, missingCount c))

/-- Insight 2.  Guarded by `if df.isnull().sum().max() > 0:`; the column
is selected by `idxmax` (first maximum in declaration order).  `none`
covers both the empty table (pandas `max()` of an empty series is NaN,
and `NaN > 0` is false) and the all-zero case. -/
def missingInsight (t : Table) : Option (String × Nat) :=
  match pyMaxKey (fun p => p.2) (missingPairs t) with
  | none => none
  | some p => if 0 < p.2 then some p else none

/-! ## Insight 3: most imbalanced categorical column (app.py lines 80-85) -/

/-- `df[col].value_counts(normalize=True).max()`: the relative frequency
of the most frequent non-missing value.  `none` models the NaN produced
by `max()` on an empty value_counts (column with no non-missing cell). -/
def dominance (c : Column) : Option ℚ :=
  match nonMissing c.cells with
  | [] => none
  | v :: vs =>
      some ((((v :: vs).map (fun x => (v :: vs).count x)).foldl max 0 : ℕ) /
        (((v :: vs).length : ℕ) : ℚ))

/-- The dict `cat_counts` of app.py line 82, in declaration order. -/
def imbalancePairs (t : Table) : List (String × Option ℚ) :=
  (categoricalCols t).map (fun c => (c.name, dominance c))

/-- Python `>` on float keys where `none` stands for NaN: every
comparison against NaN is false. -/
def optGt : Option ℚ → Option ℚ → Bool
  | some a, some b => decide (b < a)
  | _, _ => false

/-- Insight 3, `max(cat_counts, key=cat_counts.get)` guarded by
`if categorical_cols:`.  Python `max` keeps the running best unless a
later key compares strictly greater, and comparisons with NaN are always
false. -/
def imbalanceInsight (t : Table) : Option (String × Option ℚ) :=
  match imbalancePairs t with
  | [] => none
  | p :: ps => some (ps.foldl (fun b y => if optGt y.2 b.2 then y else b) p)

/-! ## Insight 4: column with most outliers, IQR method (app.py lines 88-97) -/

/-- Sort a list of rationals ascending (pandas sorts the non-missing
values before interpolating a quantile). -/
def sortQ (l : List ℚ) : List ℚ :=
  List.insertionSort (fun a b => a ≤ b) l

/-- Linear interpolation at quantile `q` on an already sorted list `s`:
the virtual position is `q * (n - 1)`, and the value is interpolated
between the two neighbouring order statistics. -/
def interpAt (s : List ℚ) (q : ℚ) : ℚ :=
  let n := s.length
  let pos : ℚ := q * ((n : ℚ) - 1)
  let i : Nat := (Rat.floor pos).toNat
  let lo := s.getD i 0
  let hi := s.getD (min (i + 1) (n - 1)) 0
  lo + (pos - (i : ℚ)) * (hi - lo)

/-- `df[col].quantile(q)` with the default linear interpolation: sort the
non-missing values and interpolate; an empty column yields NaN,
modelled as `none`. -/
def quantileLin (l : List ℚ) (q : ℚ) : Option ℚ :=
  match l with
  | [] => none
  | _ :: _ => some (interpAt (sortQ l) q)

/-- The per-column outlier count of app.py lines 91-94: values strictly
below `Q1 - 1.5*IQR` or strictly above `Q3 + 1.5*IQR`.  The comparison
series is evaluated on every cell and a missing cell satisfies neither
strict comparison (NaN comparisons are false), so only non-missing
values are ever counted.  When the column has no numeric values both
quantiles are NaN, every comparison is false, and the count is 0. -/
def outlierCount (cells : List Cell) : Nat :=
  match quantileLin (numsOf cells) (1/4), quantileLin (numsOf cells) (3/4) with
  | some q1, some q3 =>
      let iqr := q3 - q1
      cells.countP (fun c =>
        match c with
        | Cell.num x => decide (x < q1 - 3/2 * iqr) || decide (q3 + 3/2 * iqr < x)
        | _ => false)
  | _, _ => 0

/-- The dict `outlier_counts` of app.py lines 89-95, in declaration
order of the numeric columns. -/
def outlierPairs (t : Table) : List (String × Nat) :=
  (numericCols t).map (fun c => (c.name, outlierCount c.cells))

/-- Insight 4, `max(outlier_counts, key=outlier_counts.get)` at line 96.
There is no guard in the source: with zero numeric columns the dict is
empty and Python `max` raises ValueError, modelled as `Except.error`. -/
def mostOutliersE (t : Table) : Except String (String × Nat) :=
  match pyMaxKey (fun p => p.2) (outlierPairs t) with
  | none => Except.error ("ValueError: max arg is an empty sequence")
  | some p => Except.ok p

/-! ## Insight 1: most correlated feature pair (app.py lines 48, 67-71) -/

/-- The rows where both columns are non-missing: pandas `corr` uses
pairwise complete observations. -/
def numPairs (xs ys : List Cell) : List (ℚ × ℚ) :=
  (xs.zip ys).filterMap (fun p =>
    match p with
    | (Cell.num a, Cell.num b) => some (a, b)
    | _ => none)

/-- The square of the Pearson correlation of two cell columns, on their
pairwise complete observations:
`(n*sxy - sx*sy)^2 / ((n*sxx - sx*sx) * (n*syy - sy*sy))`.
`none` models the NaN entry produced when either column is constant (or
when fewer than two complete pairs exist), where the denominator is 0. -/
def corrSq (xs ys : List Cell) : Option ℚ :=
  let ps := numPairs xs ys
  let n : ℚ := (ps.length : ℕ)
  let sx := (ps.map (fun p => p.1)).sum
  let sy := (ps.map (fun p => p.2)).sum
  let sxx := (ps.map (fun p => p.1 * p.1)).sum
  let syy := (ps.map (fun p => p.2 * p.2)).sum
  let sxy := (ps.map (fun p => p.1 * p.2)).sum
  let den := (n * sxx - sx * sx) * (n * syy - sy * sy)
  if den = 0 then none
  else some ((n * sxy - sx * sy) * (n * sxy - sx * sy) / den)

/-- All entries of `corr.abs().unstack()` (app.py line 68): every ordered
pair of numeric columns, including the diagonal, with the squared
correlation (`none` = NaN). -/
def corrEntries (t : Table) : List (String × String × Option ℚ) :=
  (numericCols t).flatMap (fun ci =>
    (numericCols t).map (fun cj => (ci.name, cj.name, corrSq ci.cells cj.cells)))

/-- `cor_pairs = cor_pairs[cor_pairs < 1]` (app.py line 69): keep only
the defined entries strictly below 1; NaN entries are dropped because a
comparison with NaN is false, and diagonal or perfectly correlated
entries are dropped because they equal 1. -/
def keptEntries (t : Table) : List (String × String × ℚ) :=
  (corrEntries t).filterMap (fun e =>
    match e.2.2 with
    | some v => if v < 1 then some (e.1, e.2.1, v) else none
    | none => none)

/-- Insight 1 (app.py lines 68-71).  With no numeric column the name
`corr` was never assigned (line 48 runs only under `if numeric_cols:`),
so line 68 raises NameError; with a nonempty matrix but no kept entry,
`idxmax` on the empty filtered series raises ValueError.  Otherwise the
entry with the maximal value is reported (tie order in the source is the
deterministic order of `sort_values`; the model takes the first maximal
entry in unstack order, also deterministic). -/
def topPairE (t : Table) : Except String (String × String × ℚ) :=
  match numericCols t with
  | [] => Except.error ("NameError: name corr is not defined")
  | _ :: _ =>
      match pyMaxKey (fun e => e.2.2) (keptEntries t) with
      | none => Except.error ("ValueError: attempt to get argmax of an empty sequence")
      | some p => Except.ok p

/-! ## Insight 5: time-based trend (app.py lines 99-114) -/

/-- The numeric value of a decimal digit character. -/
def digitVal (c : Char) : Option Nat :=
  if c = '0' then some 0 else if c = '1' then some 1 else if c = '2' then some 2
  else if c = '3' then some 3 else if c = '4' then some 4 else if c = '5' then some 5
  else if c = '6' then some 6 else if c = '7' then some 7 else if c = '8' then some 8
  else if c = '9' then some 9 else none

/-- The decimal number denoted by a nonempty list of digit characters. -/
def natOfDigits (cs : List Char) : Option Nat :=
  match cs with
  | [] => none
  | _ :: _ =>
      cs.foldl (fun acc c =>
        match acc, digitVal c with
        | some a, some d => some (a * 10 + d)
        | _, _ => none) (some 0)

/-- Split a list of characters at every dash. -/
def splitDash (cs : List Char) : List (List Char) :=
  match cs with
  | [] => [[]]
  | c :: rest =>
      if c = '-' then [] :: splitDash rest
      else
        match splitDash rest with
        | [] => [[c]]
        | g :: gs => (c :: g) :: gs

/-- Model of pandas `to_datetime` on an ISO formatted string
`YYYY-MM-DD`: the ordinal `y*10000 + m*100 + d`, strictly monotone in
calendar order.  Any other string fails to parse. -/
def parseDate (s : String) : Option Nat :=
  match splitDash s.data with
  | [y, m, d] =>
      match natOfDigits y, natOfDigits m, natOfDigits d with
      | some yn, some mn, some dn =>
          if 1 ≤ mn ∧ mn ≤ 12 ∧ 1 ≤ dn ∧ dn ≤ 31
          then some (yn * 10000 + mn * 100 + dn) else none
      | _, _, _ => none
  | _ => none

/-- Element-wise behaviour of `pd.to_datetime` on a candidate column:
a datetime cell is returned unchanged, a missing cell becomes NaT, a
text cell must parse; a numeric or boolean cell in a candidate column is
outside the model and is treated as a parse failure. -/
def parseCellDT : Cell → Option Cell
  | Cell.missing => some Cell.missing
  | Cell.date d => some (Cell.date d)
  | Cell.str s => (parseDate s).map Cell.date
  | _ => none

/-- `df.select_dtypes(include=['datetime', 'object']).columns`
(app.py line 100), in declaration order. -/
def dtCandidates (t : Table) : List Column :=
  t.cols.filter (fun c => c.kind == ColKind.datetime || c.kind == ColKind.text)

/-- `pd.to_datetime(df[col])` on a whole column: succeeds iff every
non-missing cell parses; a single failure raises, which the loop at
line 113 catches before any assignment happens. -/
def parsedCol (c : Column) : Option (List Cell) :=
  c.cells.mapM parseCellDT

/-- The first candidate column (in declaration order) whose values fully
parse, with its parsed cells.  The loop at lines 101-114 `break`s after
the first success and `continue`s past failures. -/
def firstParsed (t : Table) : Option (String × List Cell) :=
  (dtCandidates t).findSome? (fun c => (parsedCol c).map (fun pc => (c.name, pc)))

/-- `df[[time_col, y]].dropna()` (app.py line 108): the (date, value)
rows where both chosen columns are non-missing. -/
def trendRows (dcells ycells : List Cell) : List (Nat × ℚ) :=
  (dcells.zip ycells).filterMap (fun p =>
    match p with
    | (Cell.date d, Cell.num q) => some (d, q)
    | _ => none)

/-- `groupby(time_col)[y].mean()` (app.py line 109): group keys sorted
ascending (pandas groupby sorts keys by default), value = arithmetic
mean of the numeric column over the rows of each key. -/
def groupMeans (rows : List (Nat × ℚ)) : List (Nat × ℚ) :=
  let ks := List.insertionSort (fun a b => a ≤ b) (rows.map (fun r => r.1)).dedup
  ks.map (fun k =>
    let vs := (rows.filter (fun r => r.1 == k)).map (fun r => r.2)
    (k, vs.sum / ((vs.length : ℕ) : ℚ)))

/-- Insight 5 (app.py lines 99-114): pick the first fully parsing
candidate column, pair it with the first numeric column, group and
average.  `none` when no candidate parses or when there is no numeric
column (the body at line 106 is guarded by `if numeric_cols:`). -/
def timeTrend (t : Table) : Option (String × String × List (Nat × ℚ)) :=
  match firstParsed t with
  | none => none
  | some (dn, dcells) =>
      match numericCols t with
      | [] => none
      | y :: _ => some (dn, y.name, groupMeans (trendRows dcells y.cells))

/-- The in-place effect of `df[col] = pd.to_datetime(df[col])` at
app.py line 103: the first fully parsing candidate column is replaced by
its parsed datetime version; nothing else changes, and nothing changes
when no candidate parses (the exception is raised before assignment). -/
def applyTrendMutation (t : Table) : Table :=
  match firstParsed t with
  | none => t
  | some (dn, dcells) =>
      ⟨t.cols.map (fun c =>
        if c.name = dn then ⟨c.name, ColKind.datetime, dcells⟩ else c)⟩

/-! ## The whole insight block (app.py lines 63-114) -/

/-- The report rendered by the insight section: one optional field per
insight.  Correlations are squared (see the header comment). -/
structure Report : Type where
  corrPair : Option (String × String × ℚ)
  missingData : Option (String × Nat)
  imbalance : Option (String × Option ℚ)
  outliers : Option (String × Nat)
  trend : Option (String × String × List (Nat × ℚ))
deriving DecidableEq

/-- The linear execution of the five insights.  Insights run in order
1, 2, 3, 4, 5; only insight 5 is wrapped in try/except, so an exception
in insight 1 (or 4) aborts everything after it.  On success the result
also carries the table as mutated by insight 5. -/
def runScript (t : Table) : Except String (Report × Table) :=
  match topPairE t with
  | Except.error e => Except.error e
  | Except.ok p =>
      match mostOutliersE t with
      | Except.error e => Except.error e
      | Except.ok o =>
          Except.ok
            ({ corrPair := some p
               missingData := missingInsight t
               imbalance := imbalanceInsight t
               outliers := some o
               trend := timeTrend t },
             applyTrendMutation t)

/-! ## Generic facts about the Python max / idxmax model -/

theorem foldMax_cons {α β : Type} [LinearOrder β] (key : α → β) (x y : α) (ys : List α) :
    foldMax key x (y :: ys) = foldMax key (if key x < key y then y else x) ys := rfl

theorem foldMax_mem {α β : Type} [LinearOrder β] (key : α → β) (l : List α) :
    ∀ x : α, foldMax key x l ∈ x :: l := by
  induction l with
  | nil => intro x; simp [foldMax]
  | cons y ys ih =>
      intro x
      rw [foldMax_cons]
      by_cases h : key x < key y
      · rw [if_pos h]
        have h2 := ih y
        rcases List.mem_cons.mp h2 with h3 | h3
        · exact List.mem_cons.mpr (Or.inr (by rw [h3]; exact List.mem_cons_self _ _))
        · exact List.mem_cons.mpr (Or.inr (List.mem_cons.mpr (Or.inr h3)))
      · rw [if_neg h]
        have h2 := ih x
        rcases List.mem_cons.mp h2 with h3 | h3
        · exact List.mem_cons.mpr (Or.inl h3)
        · exact List.mem_cons.mpr (Or.inr (List.mem_cons.mpr (Or.inr h3)))

theorem foldMax_le {α β : Type} [LinearOrder β] (key : α → β) (l : List α) :
    ∀ x : α, ∀ z ∈ x :: l, key z ≤ key (foldMax key x l) := by
  induction l with
  | nil =>
      intro x z hz
      rcases List.mem_cons.mp hz with h | h
      · rw [h]; exact le_refl _
      · cases h
  | cons y ys ih =>
      intro x z hz
      rw [foldMax_cons]
      have hx : key x ≤ key (if key x < key y then y else x) := by
        by_cases h : key x < key y
        · rw [if_pos h]; exact le_of_lt h
        · rw [if_neg h]
      have hy : key y ≤ key (if key x < key y then y else x) := by
        by_cases h : key x < key y
        · rw [if_pos h]
        · rw [if_neg h]; exact le_of_not_lt h
      have hhead := ih (if key x < key y then y else x) _
        (List.mem_cons_self (if key x < key y then y else x) ys)
      rcases List.mem_cons.mp hz with h | h
      · rw [h]; exact le_trans hx hhead
      · rcases List.mem_cons.mp h with h2 | h2
        · rw [h2]; exact le_trans hy hhead
        · exact ih _ z (List.mem_cons.mpr (Or.inr h2))

theorem find_congr {α : Type} {p q : α → Bool} :
    ∀ l : List α, (∀ y ∈ l, p y = q y) → l.find? p = l.find? q := by
  intro l
  induction l with
  | nil => intro _; rfl
  | cons y ys ih =>
      intro h
      rw [List.find?_cons, List.find?_cons, h y (List.mem_cons_self _ _)]
      cases q y
      · exact ih (fun z hz => h z (List.mem_cons.mpr (Or.inr hz)))
      · rfl

theorem foldMax_find {α β : Type} [LinearOrder β] (key : α → β) (l : List α) :
    ∀ x : α, (x :: l).find? (fun z => decide (key (foldMax key x l) ≤ key z)) =
      some (foldMax key x l) := by
  induction l with
  | nil =>
      intro x
      simp [foldMax, List.find?_cons]
  | cons y ys ih =>
      intro x
      rw [foldMax_cons]
      by_cases h : key x < key y
      · rw [if_pos h]
        have hyr : key y ≤ key (foldMax key y ys) :=
          foldMax_le key ys y y (List.mem_cons_self _ _)
        have hxr : (decide (key (foldMax key y ys) ≤ key x)) = false :=
          decide_eq_false
            (fun hc => absurd (lt_of_lt_of_le h (le_trans hyr hc)) (lt_irrefl _))
        simp only [List.find?_cons, hxr]
        exact ih y
      · rw [if_neg h]
        have hyx : key y ≤ key x := le_of_not_lt h
        by_cases h2 : key (foldMax key x ys) ≤ key x
        · have hd : (decide (key (foldMax key x ys) ≤ key x)) = true := decide_eq_true h2
          have hfind := ih x
          simp only [List.find?_cons, hd] at hfind
          simp only [List.find?_cons, hd]
          exact hfind
        · have hd2 : (decide (key (foldMax key x ys) ≤ key x)) = false := decide_eq_false h2
          have hd3 : (decide (key (foldMax key x ys) ≤ key y)) = false :=
            decide_eq_false (fun hc => h2 (le_trans hc hyx))
          have hfind := ih x
          simp only [List.find?_cons, hd2] at hfind
          simp only [List.find?_cons, hd2, hd3]
          exact hfind

theorem pyMaxKey_mem {α β : Type} [LinearOrder β] (key : α → β) (l : List α) (m : α)
    (h : pyMaxKey key l = some m) : m ∈ l := by
  cases l with
  | nil => cases h
  | cons x xs =>
      have h2 : foldMax key x xs = m := by
        simpa [pyMaxKey] using h
      rw [← h2]
      exact foldMax_mem key xs x

theorem pyMaxKey_le {α β : Type} [LinearOrder β] (key : α → β) (l : List α) (m : α)
    (h : pyMaxKey key l = some m) : ∀ z ∈ l, key z ≤ key m := by
  cases l with
  | nil => cases h
  | cons x xs =>
      have h2 : foldMax key x xs = m := by
        simpa [pyMaxKey] using h
      rw [← h2]
      exact foldMax_le key xs x

theorem pyMaxKey_first {α β : Type} [LinearOrder β] (key : α → β) (l : List α) (m : α)
    (h : pyMaxKey key l = some m) :
    l.find? (fun z => decide (key z = key m)) = some m := by
  cases l with
  | nil => cases h
  | cons x xs =>
      have h2 : foldMax key x xs = m := by
        simpa [pyMaxKey] using h
      have h3 := foldMax_find key xs x
      rw [h2] at h3
      rw [← h3]
      apply find_congr
      intro z hz
      have hle : key z ≤ key m := pyMaxKey_le key (x :: xs) m h z hz
      by_cases he : key z = key m
      · simp [he]
      · have : ¬ key m ≤ key z := fun hc => he (le_antisymm hle hc)
        simp [he, this]

theorem pyMaxKey_isSome {α β : Type} [LinearOrder β] (key : α → β) (l : List α)
    (h : l ≠ []) : (pyMaxKey key l).isSome := by
  cases l with
  | nil => exact absurd rfl h
  | cons x xs => simp [pyMaxKey]

/-! ## Counting facts: missing cells never contribute to outlier counts -/

theorem countP_numsOf (f : ℚ → Bool) (cells : List Cell) :
    (cells.countP (fun c =>
      match c with
      | Cell.num x => f x
      | _ => false)) = (numsOf cells).countP f := by
  induction cells with
  | nil => rfl
  | cons c cs ih =>
      cases c with
      | num q =>
          have h1 : numsOf (Cell.num q :: cs) = q :: numsOf cs := rfl
          rw [h1, List.countP_cons, List.countP_cons, ih]
      | str s =>
          have h1 : numsOf (Cell.str s :: cs) = numsOf cs := rfl
          rw [h1, List.countP_cons, ih]
          all_goals simp
      | date d =>
          have h1 : numsOf (Cell.date d :: cs) = numsOf cs := rfl
          rw [h1, List.countP_cons, ih]
          all_goals simp
      | missing =>
          have h1 : numsOf (Cell.missing :: cs) = numsOf cs := rfl
          rw [h1, List.countP_cons, ih]
          all_goals simp

theorem numsOf_append (l1 l2 : List Cell) :
    numsOf (l1 ++ l2) = numsOf l1 ++ numsOf l2 := by
  simp [numsOf]

theorem numsOf_replicate_missing (k : Nat) :
    numsOf (List.replicate k Cell.missing) = [] := by
  induction k with
  | zero => rfl
  | succ n ih => simp [List.replicate_succ, numsOf, List.filterMap_cons]

/-- The outlier count of a column is a function of its non-missing
numeric values alone. -/
theorem outlierCount_eq (cells : List Cell) :
    outlierCount cells =
      match quantileLin (numsOf cells) (1/4), quantileLin (numsOf cells) (3/4) with
      | some q1, some q3 =>
          (numsOf cells).countP (fun x =>
            decide (x < q1 - 3/2 * (q3 - q1)) || decide (q3 + 3/2 * (q3 - q1) < x))
      | _, _ => 0 := by
  unfold outlierCount
  cases hq1 : quantileLin (numsOf cells) (1/4) with
  | none => rfl
  | some q1 =>
      cases hq3 : quantileLin (numsOf cells) (3/4) with
      | none => rfl
      | some q3 => exact countP_numsOf _ cells

theorem outlierCount_congr (a b : List Cell) (h : numsOf a = numsOf b) :
    outlierCount a = outlierCount b := by
  rw [outlierCount_eq, outlierCount_eq, h]

/-! ## A Cauchy-Schwarz instance for list sums -/

theorem sq_sum_le_card_mul (l : List ℚ) :
    l.sum * l.sum ≤ ((l.length : ℕ) : ℚ) * (l.map (fun x => x * x)).sum := by
  induction l with
  | nil => simp
  | cons a t ih =>
      simp only [List.sum_cons, List.map_cons, List.length_cons]
      push_cast
      rcases eq_or_ne t [] with ht | ht
      · subst ht; simp
      · have hn1 : 1 ≤ t.length := List.length_pos.mpr ht
        have hn1q : (1 : ℚ) ≤ ((t.length : ℕ) : ℚ) := by exact_mod_cast hn1
        nlinarith [ih, sq_nonneg (((t.length : ℕ) : ℚ) * a - t.sum), hn1q]

/-! ## Facts about the squared-correlation entries -/

theorem corrSq_nonneg (xs ys : List Cell) (v : ℚ) (h : corrSq xs ys = some v) :
    0 ≤ v := by
  simp only [corrSq] at h
  set ps := numPairs xs ys with hps
  set n : ℚ := ((ps.length : ℕ) : ℚ) with hn
  set sx := (ps.map (fun p => p.1)).sum with hsx
  set sy := (ps.map (fun p => p.2)).sum with hsy
  set sxx := (ps.map (fun p => p.1 * p.1)).sum with hsxx
  set syy := (ps.map (fun p => p.2 * p.2)).sum with hsyy
  set sxy := (ps.map (fun p => p.1 * p.2)).sum with hsxy
  by_cases hden : (n * sxx - sx * sx) * (n * syy - sy * sy) = 0
  · rw [if_pos hden] at h; cases h
  · rw [if_neg hden] at h
    have hA : 0 ≤ n * sxx - sx * sx := by
      have h2 := sq_sum_le_card_mul (ps.map (fun p => p.1))
      rw [List.map_map, List.length_map] at h2
      have h3 : ((fun x => x * x) ∘ fun p => p.1) = fun (p : ℚ × ℚ) => p.1 * p.1 := rfl
      rw [h3] at h2
      rw [hsx, hsxx, hn]
      linarith [h2]
    have hB : 0 ≤ n * syy - sy * sy := by
      have h2 := sq_sum_le_card_mul (ps.map (fun p => p.2))
      rw [List.map_map, List.length_map] at h2
      have h3 : ((fun x => x * x) ∘ fun p => p.2) = fun (p : ℚ × ℚ) => p.2 * p.2 := rfl
      rw [h3] at h2
      rw [hsy, hsyy, hn]
      linarith [h2]
    have hpos : 0 < (n * sxx - sx * sx) * (n * syy - sy * sy) :=
      lt_of_le_of_ne (mul_nonneg hA hB) (Ne.symm hden)
    have hv : (n * sxy - sx * sy) * (n * sxy - sx * sy) /
        ((n * sxx - sx * sx) * (n * syy - sy * sy)) = v := by
      injection h
    rw [← hv]
    exact div_nonneg (mul_self_nonneg _) (le_of_lt hpos)

theorem numPairs_self_eq (xs : List Cell) :
    ∀ p ∈ numPairs xs xs, p.1 = p.2 := by
  unfold numPairs
  induction xs with
  | nil => intro p hp; cases hp
  | cons c cs ih =>
      intro p hp
      rw [List.zip_cons_cons, List.filterMap_cons] at hp
      cases c with
      | num q =>
          rcases List.mem_cons.mp hp with h | h
          · rw [h]
          · exact ih p h
      | str s => exact ih p hp
      | date d => exact ih p hp
      | missing => exact ih p hp

/-- A diagonal entry of the correlation matrix is 1 when the column has
positive variance and NaN when it is constant; it is never below 1. -/
theorem corrSq_self (xs : List Cell) :
    corrSq xs xs = none ∨ corrSq xs xs = some 1 := by
  simp only [corrSq]
  have hmap : ∀ (f g : ℚ × ℚ → ℚ), (∀ p : ℚ × ℚ, p.1 = p.2 → f p = g p) →
      ((numPairs xs xs).map f).sum = ((numPairs xs xs).map g).sum := by
    intro f g hfg
    have : (numPairs xs xs).map f = (numPairs xs xs).map g :=
      List.map_congr_left (fun p hp => hfg p (numPairs_self_eq xs p hp))
    rw [this]
  have hsy : ((numPairs xs xs).map (fun p => p.2)).sum =
      ((numPairs xs xs).map (fun p => p.1)).sum :=
    hmap _ _ (fun p hp => by rw [hp])
  have hsyy : ((numPairs xs xs).map (fun p => p.2 * p.2)).sum =
      ((numPairs xs xs).map (fun p => p.1 * p.1)).sum :=
    hmap _ _ (fun p hp => by rw [hp])
  have hsxy : ((numPairs xs xs).map (fun p => p.1 * p.2)).sum =
      ((numPairs xs xs).map (fun p => p.1 * p.1)).sum :=
    hmap _ _ (fun p hp => by rw [hp])
  rw [hsy, hsyy, hsxy]
  set ps := numPairs xs xs
  set n : ℚ := ((ps.length : ℕ) : ℚ)
  set sx := (ps.map (fun p => p.1)).sum
  set sxx := (ps.map (fun p => p.1 * p.1)).sum
  by_cases hA : n * sxx - sx * sx = 0
  · left; rw [hA]; norm_num
  · right
    rw [if_neg (mul_ne_zero hA hA)]
    rw [div_self (mul_ne_zero hA hA)]

/-! ## Decomposition of the correlation entry lists -/

theorem mem_corrEntries (t : Table) (e : String × String × Option ℚ) :
    e ∈ corrEntries t ↔ ∃ ci, ci ∈ numericCols t ∧ ∃ cj, cj ∈ numericCols t ∧
      e = (ci.name, cj.name, corrSq ci.cells cj.cells) := by
  unfold corrEntries
  rw [List.mem_flatMap]
  constructor
  · rintro ⟨ci, hci, hmem⟩
    rcases List.mem_map.mp hmem with ⟨cj, hcj, heq⟩
    exact ⟨ci, hci, cj, hcj, heq.symm⟩
  · rintro ⟨ci, hci, cj, hcj, heq⟩
    exact ⟨ci, hci, List.mem_map.mpr ⟨cj, hcj, heq.symm⟩⟩

theorem mem_keptEntries (t : Table) (a b : String) (v : ℚ) :
    (a, b, v) ∈ keptEntries t ↔ ((a, b, some v) ∈ corrEntries t ∧ v < 1) := by
  unfold keptEntries
  rw [List.mem_filterMap]
  constructor
  · rintro ⟨e, he, hf⟩
    obtain ⟨x, y, o⟩ := e
    cases o with
    | none => exact absurd hf (by dsimp only; exact fun hc => Option.noConfusion hc)
    | some w =>
        dsimp only at hf
        by_cases hw : w < 1
        · rw [if_pos hw] at hf
          injection hf with h1
          injection h1 with hx h2
          injection h2 with hy hw2
          subst hx; subst hy; subst hw2
          exact ⟨he, hw⟩
        · rw [if_neg hw] at hf
          exact absurd hf (fun hc => Option.noConfusion hc)
  · rintro ⟨he, hv⟩
    refine ⟨(a, b, some v), he, ?_⟩
    dsimp only
    rw [if_pos hv]

/-! ## The imbalance fold on defined dominances -/

theorem dominance_isSome (c : Column) (h : nonMissing c.cells ≠ []) :
    (dominance c).isSome := by
  unfold dominance
  cases hnm : nonMissing c.cells with
  | nil => exact absurd hnm h
  | cons v vs => simp

theorem imbalance_fold_eq (ps : List (String × Option ℚ)) :
    ∀ p : String × Option ℚ, p.2.isSome → (∀ q ∈ ps, q.2.isSome) →
      ps.foldl (fun b y => if optGt y.2 b.2 then y else b) p =
        foldMax (fun r => r.2.getD 0) p ps := by
  induction ps with
  | nil => intro p _ _; rfl
  | cons q qs ih =>
      intro p hp hq
      obtain ⟨pb, hpb⟩ := Option.isSome_iff_exists.mp hp
      obtain ⟨qa, hqa⟩ := Option.isSome_iff_exists.mp (hq q (List.mem_cons_self _ _))
      have hstep : (if optGt q.2 p.2 then q else p) =
          (if p.2.getD 0 < q.2.getD 0 then q else p) := by
        rw [hpb, hqa]
        simp [optGt]
      rw [List.foldl_cons, foldMax_cons, ← hstep]
      apply ih
      · by_cases hb : optGt q.2 p.2
        · simpa [hb] using hq q (List.mem_cons_self _ _)
        · simpa [hb] using hp
      · intro r hr
        exact hq r (List.mem_cons.mpr (Or.inr hr))

theorem imbalanceInsight_eq_pyMax (t : Table)
    (hall : ∀ q ∈ imbalancePairs t, q.2.isSome) :
    imbalanceInsight t = pyMaxKey (fun r => r.2.getD 0) (imbalancePairs t) := by
  unfold imbalanceInsight pyMaxKey
  cases hps : imbalancePairs t with
  | nil => rfl
  | cons p ps =>
      have hp : p.2.isSome := hall p (by rw [hps]; exact List.mem_cons_self _ _)
      have hq : ∀ q ∈ ps, q.2.isSome :=
        fun q hqq => hall q (by rw [hps]; exact List.mem_cons.mpr (Or.inr hqq))
      dsimp only
      rw [imbalance_fold_eq ps p hp hq]

/-! ## The first fully parsing candidate, as a find? -/

theorem findSome_eq_find {α β : Type} (f : α → Option β) :
    ∀ (l : List α) (b : β), l.findSome? f = some b →
      ∃ a, l.find? (fun x => (f x).isSome) = some a ∧ f a = some b := by
  intro l
  induction l with
  | nil => intro b h; cases h
  | cons x xs ih =>
      intro b h
      rw [List.findSome?_cons] at h
      cases hfx : f x with
      | some v =>
          rw [hfx] at h
          refine ⟨x, ?_, ?_⟩
          · simp [List.find?_cons, hfx]
          · rw [hfx]; exact h
      | none =>
          rw [hfx] at h
          rcases ih b h with ⟨a, ha1, ha2⟩
          refine ⟨a, ?_, ha2⟩
          simp [List.find?_cons, hfx, ha1]

/-! ## Facts about the grouped means -/

theorem groupMeans_sorted (rows : List (Nat × ℚ)) :
    (groupMeans rows).Pairwise (fun a b => a.1 < b.1) := by
  simp only [groupMeans]
  rw [List.pairwise_map]
  have hs : List.Sorted (fun a b => a ≤ b)
      (List.insertionSort (fun a b => a ≤ b) (rows.map (fun r => r.1)).dedup) :=
    List.sorted_insertionSort _ _
  have hn : (List.insertionSort (fun a b => a ≤ b) (rows.map (fun r => r.1)).dedup).Nodup :=
    (List.perm_insertionSort _ _).nodup_iff.mpr (List.nodup_dedup _)
  simpa using hs.lt_of_le hn

theorem groupMeans_mem (rows : List (Nat × ℚ)) (d : Nat) (m : ℚ) :
    (d, m) ∈ groupMeans rows ↔
      (d ∈ rows.map (fun r => r.1) ∧
        m = ((rows.filter (fun r => r.1 == d)).map (fun r => r.2)).sum /
          (((((rows.filter (fun r => r.1 == d)).map (fun r => r.2)).length : ℕ)) : ℚ)) := by
  simp only [groupMeans]
  rw [List.mem_map]
  constructor
  · rintro ⟨k, hk, heq⟩
    have hkd : k = d := congrArg Prod.fst heq
    subst hkd
    have hm : m = ((rows.filter (fun r => r.1 == k)).map (fun r => r.2)).sum /
        (((((rows.filter (fun r => r.1 == k)).map (fun r => r.2)).length : ℕ)) : ℚ) :=
      (congrArg Prod.snd heq).symm
    refine ⟨?_, hm⟩
    have hk2 : k ∈ (rows.map (fun r => r.1)).dedup :=
      (List.perm_insertionSort _ _).mem_iff.mp hk
    exact List.mem_dedup.mp hk2
  · rintro ⟨hd, hm⟩
    refine ⟨d, ?_, ?_⟩
    · rw [(List.perm_insertionSort _ _).mem_iff]
      exact List.mem_dedup.mpr hd
    · rw [hm]

/-! ## Concrete tables used as failing inputs, counterexamples and witnesses -/

/-- A table with zero numeric columns. -/
def tNoNum : Table :=
  ⟨[⟨"name", ColKind.text, [Cell.str "a", Cell.str "b"]⟩]⟩

/-- A table with exactly one numeric column and a text column holding
one missing value. -/
def tOneNum : Table :=
  ⟨[⟨"x", ColKind.numeric, [Cell.num 1, Cell.num 2]⟩,
    ⟨"b", ColKind.text, [Cell.str "u", Cell.missing]⟩]⟩

/-- A table on which the whole script succeeds: a parseable text date
column and two imperfectly correlated numeric columns. -/
def tC3 : Table :=
  ⟨[⟨"d", ColKind.text, [Cell.str "2020-01-01", Cell.str "2020-01-02", Cell.str "2020-01-03"]⟩,
    ⟨"x", ColKind.numeric, [Cell.num 1, Cell.num 2, Cell.num 3]⟩,
    ⟨"y", ColKind.numeric, [Cell.num 1, Cell.num 2, Cell.num 4]⟩]⟩

/-- The report the script produces on `tC3`. -/
def rC3 : Report :=
  { corrPair := some ("x", "y", 27/28)
    missingData := none
    imbalance := some ("d", some (1/3))
    outliers := some ("x", 0)
    trend := some ("d", "x", [(20200101, 1), (20200102, 2), (20200103, 3)]) }

/-- The table as it stands after the script ran on `tC3`: the date
column has been converted in place. -/
def tC3mut : Table :=
  ⟨[⟨"d", ColKind.datetime, [Cell.date 20200101, Cell.date 20200102, Cell.date 20200103]⟩,
    ⟨"x", ColKind.numeric, [Cell.num 1, Cell.num 2, Cell.num 3]⟩,
    ⟨"y", ColKind.numeric, [Cell.num 1, Cell.num 2, Cell.num 4]⟩]⟩

/-- Three numeric columns where `a` and `b` are perfectly correlated
(`b = 2a`) while `c` is not. -/
def tC4 : Table :=
  ⟨[⟨"a", ColKind.numeric, [Cell.num 1, Cell.num 2, Cell.num 3]⟩,
    ⟨"b", ColKind.numeric, [Cell.num 2, Cell.num 4, Cell.num 6]⟩,
    ⟨"c", ColKind.numeric, [Cell.num 1, Cell.num 2, Cell.num 4]⟩]⟩

/-- A table where exactly one column (`b`) holds exactly one missing
value. -/
def tEx5 : Table :=
  ⟨[⟨"a", ColKind.numeric, [Cell.num 1, Cell.num 2]⟩,
    ⟨"b", ColKind.numeric, [Cell.num 1, Cell.missing]⟩,
    ⟨"c", ColKind.text, [Cell.str "u", Cell.str "v"]⟩]⟩

/-- A categorical column with only missing values followed by one whose
top value holds 80 percent of the rows. -/
def tC6 : Table :=
  ⟨[⟨"c1", ColKind.text, [Cell.missing, Cell.missing]⟩,
    ⟨"c2", ColKind.text, [Cell.str "a", Cell.str "a", Cell.str "a", Cell.str "a", Cell.str "b"]⟩]⟩

/-- A single categorical column whose top value holds 80 percent of the
non-missing rows. -/
def tEx6 : Table :=
  ⟨[⟨"g", ColKind.text, [Cell.str "a", Cell.str "a", Cell.str "a", Cell.str "a", Cell.str "b"]⟩]⟩

/-- The numeric column of the worked outlier example of the spec. -/
def colC7 : List Cell :=
  [Cell.num 1, Cell.num 2, Cell.num 3, Cell.num 4, Cell.num 5,
   Cell.num 6, Cell.num 7, Cell.num 8, Cell.num 9, Cell.num 100]

/-- A table holding only the worked outlier example column. -/
def tC7 : Table := ⟨[⟨"v", ColKind.numeric, colC7⟩]⟩

/-- The worked time-trend example of the spec: duplicate date
2020-01-01 with values 10 and 20, then 2020-01-02 with value 30. -/
def tC8 : Table :=
  ⟨[⟨"date", ColKind.text, [Cell.str "2020-01-01", Cell.str "2020-01-01", Cell.str "2020-01-02"]⟩,
    ⟨"y", ColKind.numeric, [Cell.num 10, Cell.num 20, Cell.num 30]⟩]⟩

/-! ## The claims -/

/-- C1: the claim says that with zero numeric columns the outlier
insight yields "not applicable" because the maximum over the outlier
counts is explicitly guarded against the empty collection.  The code
has no such guard: `max(outlier_counts, key=...)` at app.py line 96
raises ValueError on the empty dict, and the script in fact dies even
earlier, at line 68, where `corr` was never assigned.  This theorem
evaluates the model at a table with zero numeric columns. -/
theorem C1_no_numeric_columns_raises :
    numericCols tNoNum = [] ∧
    mostOutliersE tNoNum = Except.error ("ValueError: max arg is an empty sequence") ∧
    runScript tNoNum = Except.error ("NameError: name corr is not defined") := by
  with_unfolding_all decide

/-- C2: the claim says the five insight computations are isolated so
that failure of one cannot abort the others.  Only insight 5 is wrapped
in try/except.  On a table with a single numeric column, insight 1
raises ValueError (the filtered correlation series is empty), and the
script halts: insights 2-5 are never produced, although insight 2 would
have been applicable (column `b` has one missing value). -/
theorem C2_insight1_failure_aborts_rest :
    missingInsight tOneNum = some ("b", 1) ∧
    imbalanceInsight tOneNum = some ("b", some 1) ∧
    runScript tOneNum = Except.error ("ValueError: attempt to get argmax of an empty sequence") := by
  with_unfolding_all decide

/-- The parsed date column of `tC3`. -/
def dcC3 : List Cell := [Cell.date 20200101, Cell.date 20200102, Cell.date 20200103]

/-- The first numeric column of `tC3`. -/
def xcolC3 : Column := ⟨"x", ColKind.numeric, [Cell.num 1, Cell.num 2, Cell.num 3]⟩

/-- The second numeric column of `tC3`. -/
def ycolC3 : Column := ⟨"y", ColKind.numeric, [Cell.num 1, Cell.num 2, Cell.num 4]⟩

theorem tC3_firstParsed : firstParsed tC3 = some ("d", dcC3) := by decide

theorem tC3_numericCols : numericCols tC3 = [xcolC3, ycolC3] := by decide

theorem tC3_trendRows : trendRows dcC3 xcolC3.cells =
    [(20200101, 1), (20200102, 2), (20200103, 3)] := by
  with_unfolding_all decide

theorem tC3_groupMeans : groupMeans [(20200101, 1), (20200102, 2), (20200103, 3)] =
    [(20200101, 1), (20200102, 2), (20200103, 3)] := by
  with_unfolding_all decide

theorem tC3_timeTrend : timeTrend tC3 =
    some ("d", "x", [(20200101, 1), (20200102, 2), (20200103, 3)]) := by
  unfold timeTrend
  rw [tC3_firstParsed, tC3_numericCols]
  dsimp only
  rw [tC3_trendRows, tC3_groupMeans]
  rfl

theorem tC3_mutation : applyTrendMutation tC3 = tC3mut := by
  unfold applyTrendMutation
  rw [tC3_firstParsed]
  decide

theorem tC3_runScript : runScript tC3 = Except.ok (rC3, tC3mut) := by
  unfold runScript
  have h1 : topPairE tC3 = Except.ok ("x", "y", 27/28) := by with_unfolding_all decide
  have h2 : mostOutliersE tC3 = Except.ok ("x", 0) := by with_unfolding_all decide
  have h3 : missingInsight tC3 = none := by decide
  have h4 : imbalanceInsight tC3 = some ("d", some (1/3)) := by with_unfolding_all decide
  rw [h1, h2, h3, h4, tC3_timeTrend, tC3_mutation]
  dsimp only
  rfl

/-- C3 counterexample: the claim says computing the insights does not
modify any column of the table.  On `tC3` the script succeeds and
returns a mutated table: line 103 `df[col] = pd.to_datetime(df[col])`
replaced the text date column in place. -/
theorem C3_pipeline_mutates_table :
    runScript tC3 = Except.ok (rC3, tC3mut) ∧ tC3mut ≠ tC3 :=
  ⟨tC3_runScript, by decide⟩

/-- C3 amended: the pipeline performs no I/O and is deterministic, but
it is not pure: the time-trend scan converts the first fully parsing
candidate column to datetime in place.  Column names are preserved,
every column of the result is either an unchanged input column or the
parsed replacement of the column the scan settled on, and if no
candidate parses the table is returned unchanged. -/
theorem C3_amended_frame (t : Table) :
    ((applyTrendMutation t).cols.map Column.name = t.cols.map Column.name) ∧
    (firstParsed t = none → applyTrendMutation t = t) ∧
    (∀ c ∈ (applyTrendMutation t).cols,
      c ∈ t.cols ∨ ∃ dc, firstParsed t = some (c.name, dc) ∧
        c = ⟨c.name, ColKind.datetime, dc⟩) := by
  unfold applyTrendMutation
  cases hfp : firstParsed t with
  | none => exact ⟨rfl, fun _ => rfl, fun c hc => Or.inl hc⟩
  | some pr =>
      obtain ⟨dn, dc⟩ := pr
      refine ⟨?_, ?_, ?_⟩
      · rw [List.map_map]
        apply List.map_congr_left
        intro c _
        by_cases hn : c.name = dn
        · simp [hn]
        · simp [hn]
      · intro h; cases h
      · intro c hc
        rcases List.mem_map.mp hc with ⟨c0, hc0, hrepl⟩
        by_cases hn : c0.name = dn
        · right
          refine ⟨dc, ?_, ?_⟩
          · rw [← hrepl, if_pos hn]
            rw [hn]
          · rw [← hrepl, if_pos hn]
        · left
          rw [← hrepl, if_neg hn]
          exact hc0

/-- C3 amended, witness: on a table with no parseable candidate column
the pipeline leaves the table unchanged. -/
theorem C3_amended_frame_witness : applyTrendMutation tOneNum = tOneNum :=
  (C3_amended_frame tOneNum).2.1 (by with_unfolding_all decide)

/-- C4 counterexample: the claim says that for every table with at
least two numeric columns the reported value equals the maximum
off-diagonal absolute entry of the correlation matrix.  On `tC4` the
off-diagonal entry for the distinct columns `a` and `b` is exactly 1
(they are perfectly correlated), but the filter `cor_pairs < 1` at
app.py line 69 removes it, so the reported value is the smaller 27/28.
Entries are represented by the square of the correlation. -/
theorem C4_perfect_pair_excluded :
    ("a", "b", some 1) ∈ corrEntries tC4 ∧ ("a" : String) ≠ "b" ∧
    topPairE tC4 = Except.ok ("a", "c", 27/28) ∧
    ((27 : ℚ)/28 < 1) ∧ ((27 : ℚ)/28 ≠ 1) := by
  with_unfolding_all decide

/-- C4 amended: for every table with at least two numeric columns,
distinct column names, and at least one defined off-diagonal entry
strictly below 1, the insight reports a pair of distinct column names
and a value equal to the maximum entry among those strictly below 1,
and that value lies in [0, 1).  (Values are squared correlations; the
squaring map is strictly monotone on the nonnegative reals, so maxima,
bounds at 1 and bounds at 0 transfer.) -/
theorem C4_amended_top_pair (t : Table)
    (h2 : 2 ≤ (numericCols t).length)
    (hnd : ((numericCols t).map Column.name).Nodup)
    (hne : keptEntries t ≠ []) :
    ∃ a b v, topPairE t = Except.ok (a, b, v) ∧ a ≠ b ∧ 0 ≤ v ∧ v < 1 ∧
      (a, b, v) ∈ keptEntries t ∧ ∀ e ∈ keptEntries t, e.2.2 ≤ v := by
  obtain ⟨c0, cs, hcols⟩ : ∃ c0 cs, numericCols t = c0 :: cs := by
    cases hc : numericCols t with
    | nil => rw [hc] at h2; simp at h2
    | cons a l => exact ⟨a, l, rfl⟩
  obtain ⟨m, hm⟩ := Option.isSome_iff_exists.mp
    (pyMaxKey_isSome (fun e => e.2.2) (keptEntries t) hne)
  obtain ⟨a, b, v⟩ := m
  have hmem : (a, b, v) ∈ keptEntries t := pyMaxKey_mem _ _ _ hm
  have hle : ∀ e ∈ keptEntries t, e.2.2 ≤ v := fun e he => pyMaxKey_le _ _ _ hm e he
  obtain ⟨hcorr, hv1⟩ := (mem_keptEntries t a b v).mp hmem
  obtain ⟨ci, hci, cj, hcj, heq⟩ := (mem_corrEntries t _).mp hcorr
  have ha : a = ci.name := congrArg (fun p => p.1) heq
  have hb : b = cj.name := congrArg (fun p => p.2.1) heq
  have hcs : some v = corrSq ci.cells cj.cells := congrArg (fun p => p.2.2) heq
  have hv0 : 0 ≤ v := corrSq_nonneg ci.cells cj.cells v hcs.symm
  have hne2 : a ≠ b := by
    rw [ha, hb]
    intro hcontra
    have hcij : ci = cj := List.inj_on_of_nodup_map hnd hci hcj hcontra
    rw [hcij] at hcs
    rcases corrSq_self cj.cells with hs | hs
    · rw [hs] at hcs; cases hcs
    · rw [hs] at hcs
      injection hcs with hveq
      rw [hveq] at hv1
      exact absurd hv1 (lt_irrefl 1)
  refine ⟨a, b, v, ?_, hne2, hv0, hv1, hmem, hle⟩
  unfold topPairE
  rw [hcols]
  dsimp only
  rw [hm]

/-- C4 amended, witness: on `tC4` the hypotheses hold and the insight
reports the pair `a`, `c` with value 27/28. -/
theorem C4_amended_top_pair_witness :
    ∃ a b v, topPairE tC4 = Except.ok (a, b, v) ∧ a ≠ b ∧ 0 ≤ v ∧ v < 1 ∧
      (a, b, v) ∈ keptEntries tC4 ∧ ∀ e ∈ keptEntries tC4, e.2.2 ≤ v :=
  C4_amended_top_pair tC4 (by decide) (by decide) (by with_unfolding_all decide)

/-- C5: the missing-data insight is populated exactly when some column
has a missing value; when populated it reports the first column (in
declaration order) attaining the maximal missing count, with that
count; on a table where only column `b` has exactly one missing value
it reports `b` with count 1. -/
theorem C5_missing_insight :
    (∀ t : Table, (missingInsight t).isSome ↔ ∃ c ∈ t.cols, 0 < missingCount c) ∧
    (∀ t : Table, ∀ name : String, ∀ n : Nat, missingInsight t = some (name, n) →
      0 < n ∧ (∀ p ∈ missingPairs t, p.2 ≤ n) ∧
      (missingPairs t).find? (fun p => decide (p.2 = n)) = some (name, n)) ∧
    missingInsight tEx5 = some ("b", 1) := by
  have hinv : ∀ t : Table, ∀ name : String, ∀ n : Nat, missingInsight t = some (name, n) →
      pyMaxKey (fun p => p.2) (missingPairs t) = some (name, n) ∧ 0 < n := by
    intro t name n h
    unfold missingInsight at h
    cases hpm : pyMaxKey (fun p => p.2) (missingPairs t) with
    | none => rw [hpm] at h; cases h
    | some p =>
        rw [hpm] at h
        dsimp only at h
        by_cases hp : 0 < p.2
        · rw [if_pos hp] at h
          injection h with h1
          rw [h1] at hp
          exact ⟨by rw [h1], by simpa using hp⟩
        · rw [if_neg hp] at h; cases h
  refine ⟨?_, ?_, by decide⟩
  · intro t
    constructor
    · intro hs
      obtain ⟨pr, hpr⟩ := Option.isSome_iff_exists.mp hs
      obtain ⟨name, n⟩ := pr
      obtain ⟨hpm, hn⟩ := hinv t name n hpr
      rcases List.mem_map.mp (pyMaxKey_mem _ _ _ hpm) with ⟨c, hc, hceq⟩
      refine ⟨c, hc, ?_⟩
      have hcn : missingCount c = n := congrArg Prod.snd hceq
      rw [hcn]
      exact hn
    · rintro ⟨c, hc, hcpos⟩
      have hmem : (c.name, missingCount c) ∈ missingPairs t :=
        List.mem_map.mpr ⟨c, hc, rfl⟩
      have hnel : missingPairs t ≠ [] := by
        intro h0; rw [h0] at hmem; cases hmem
      obtain ⟨m, hm⟩ := Option.isSome_iff_exists.mp
        (pyMaxKey_isSome (fun p => p.2) _ hnel)
      have hle := pyMaxKey_le _ _ _ hm _ hmem
      unfold missingInsight
      rw [hm]
      dsimp only
      rw [if_pos (lt_of_lt_of_le hcpos hle)]
      simp
  · intro t name n h
    obtain ⟨hpm, hn⟩ := hinv t name n h
    exact ⟨hn, fun p hp => pyMaxKey_le _ _ _ hpm p hp, pyMaxKey_first _ _ _ hpm⟩

/-- C5 witness: the general part applied to the concrete table whose
column `b` has exactly one missing value. -/
theorem C5_missing_insight_witness :
    0 < 1 ∧ (missingPairs tEx5).find? (fun p => decide (p.2 = 1)) = some ("b", 1) :=
  ⟨(C5_missing_insight.2.1 tEx5 "b" 1 (by decide)).1,
   (C5_missing_insight.2.1 tEx5 "b" 1 (by decide)).2.2⟩

/-- C6 counterexample: the claim says that for every table with a
nonempty categorical column set the insight reports the column whose
top value has the largest relative frequency.  When a categorical
column with no non-missing value comes first, its dominance is NaN
(`value_counts` is empty and `max()` yields NaN); Python `max` never
replaces a NaN-keyed best because every comparison with NaN is false,
so the NaN column is reported instead of the 80 percent column. -/
theorem C6_nan_dominance_first :
    imbalanceInsight tC6 = some ("c1", none) ∧
    ("c2", some ((4 : ℚ)/5)) ∈ imbalancePairs tC6 ∧ ("c1" : String) ≠ "c2" := by
  with_unfolding_all decide

/-- C6 amended: for every table whose categorical columns each contain
at least one non-missing value, the insight reports the first column
(in declaration order) attaining the maximal dominance, with that
dominance; a sole categorical column whose top value covers 4 of 5
rows is reported with dominance 4/5, displayed as 80.0 percent. -/
theorem C6_amended_imbalance :
    (∀ t : Table, categoricalCols t ≠ [] →
      (∀ c ∈ categoricalCols t, nonMissing c.cells ≠ []) →
      ∃ name q, imbalanceInsight t = some (name, some q) ∧
        (∀ p ∈ imbalancePairs t, ∀ qp, p.2 = some qp → qp ≤ q) ∧
        (imbalancePairs t).find? (fun p => decide (p.2 = some q)) = some (name, some q)) ∧
    imbalanceInsight tEx6 = some ("g", some ((4 : ℚ)/5)) ∧ ((4 : ℚ)/5) * 100 = 80 := by
  refine ⟨?_, by with_unfolding_all decide, by norm_num⟩
  intro t hne hall
  have hallsome : ∀ p ∈ imbalancePairs t, p.2.isSome := by
    intro p hp
    rcases List.mem_map.mp hp with ⟨c, hc, hceq⟩
    rw [← hceq]
    exact dominance_isSome c (hall c hc)
  have heq := imbalanceInsight_eq_pyMax t hallsome
  have hpne : imbalancePairs t ≠ [] := by
    cases hcc : categoricalCols t with
    | nil => exact absurd hcc hne
    | cons c cs =>
        unfold imbalancePairs
        rw [hcc]
        simp
  obtain ⟨m, hm⟩ := Option.isSome_iff_exists.mp
    (pyMaxKey_isSome (fun r => r.2.getD 0) _ hpne)
  have hmem := pyMaxKey_mem _ _ _ hm
  obtain ⟨name, mq⟩ := m
  obtain ⟨q, hq⟩ := Option.isSome_iff_exists.mp (hallsome _ hmem)
  subst hq
  refine ⟨name, q, ?_, ?_, ?_⟩
  · rw [heq, hm]
  · intro p hp qp hqp
    have hle := pyMaxKey_le _ _ _ hm p hp
    simpa [hqp] using hle
  · have hfind := pyMaxKey_first (fun r : String × Option ℚ => r.2.getD 0)
      (imbalancePairs t) (name, some q) hm
    have hcong : (imbalancePairs t).find? (fun p => decide (p.2 = some q)) =
        (imbalancePairs t).find? (fun z => decide (z.2.getD 0 = (some q : Option ℚ).getD 0)) := by
      apply find_congr
      intro y hy
      obtain ⟨w, hw⟩ := Option.isSome_iff_exists.mp (hallsome y hy)
      rw [hw]
      simp
    rw [hcong]
    exact hfind

/-- C6 amended, witness: the general part applied to a table with one
categorical column whose top value covers 80 percent of the rows. -/
theorem C6_amended_imbalance_witness :
    ∃ name q, imbalanceInsight tEx6 = some (name, some q) ∧
      (∀ p ∈ imbalancePairs tEx6, ∀ qp, p.2 = some qp → qp ≤ q) ∧
      (imbalancePairs tEx6).find? (fun p => decide (p.2 = some q)) = some (name, some q) :=
  C6_amended_imbalance.1 tEx6 (by decide) (by decide)

/-- C7: quantiles are linear interpolations on the sorted non-missing
values, a value is an outlier exactly when it lies strictly outside
[Q1 - 1.5*IQR, Q3 + 1.5*IQR], the reported column is the first one
attaining the maximal count, and on [1,...,9,100] the quantiles are
Q1 = 3.25 and Q3 = 7.75, the bounds are -3.5 and 14.5, and exactly the
value 100 is flagged, giving count 1. -/
theorem C7_outlier_iqr :
    (∀ l : List ℚ, List.Sorted (fun a b => a ≤ b) (sortQ l) ∧ List.Perm (sortQ l) l) ∧
    (∀ cells : List Cell, numsOf cells ≠ [] →
      ∃ q1 q3, quantileLin (numsOf cells) (1/4) = some q1 ∧
        quantileLin (numsOf cells) (3/4) = some q3 ∧
        outlierCount cells = (numsOf cells).countP (fun x =>
          decide (x < q1 - 3/2 * (q3 - q1)) || decide (q3 + 3/2 * (q3 - q1) < x))) ∧
    (∀ t : Table, ∀ name : String, ∀ n : Nat, mostOutliersE t = Except.ok (name, n) →
      (∀ p ∈ outlierPairs t, p.2 ≤ n) ∧
      (outlierPairs t).find? (fun p => decide (p.2 = n)) = some (name, n)) ∧
    quantileLin (numsOf colC7) (1/4) = some (13/4) ∧
    quantileLin (numsOf colC7) (3/4) = some (31/4) ∧
    ((13 : ℚ)/4 - 3/2 * ((31 : ℚ)/4 - 13/4) = -(7/2)) ∧
    ((31 : ℚ)/4 + 3/2 * ((31 : ℚ)/4 - 13/4) = 29/2) ∧
    outlierCount colC7 = 1 ∧ mostOutliersE tC7 = Except.ok ("v", 1) := by
  refine ⟨?_, ?_, ?_, by with_unfolding_all decide, by with_unfolding_all decide,
    by norm_num, by norm_num, by with_unfolding_all decide, by with_unfolding_all decide⟩
  · intro l
    exact ⟨List.sorted_insertionSort _ _, List.perm_insertionSort _ _⟩
  · intro cells hnn
    cases hn : numsOf cells with
    | nil => exact absurd hn hnn
    | cons a l =>
        refine ⟨interpAt (sortQ (a :: l)) (1/4), interpAt (sortQ (a :: l)) (3/4), ?_, ?_, ?_⟩
        · rfl
        · rfl
        · rw [outlierCount_eq, hn]
          rfl
  · intro t name n h
    unfold mostOutliersE at h
    cases hpm : pyMaxKey (fun p => p.2) (outlierPairs t) with
    | none => rw [hpm] at h; cases h
    | some p =>
        rw [hpm] at h
        dsimp only at h
        injection h with h1
        rw [h1] at hpm
        exact ⟨fun p2 hp2 => pyMaxKey_le _ _ _ hpm p2 hp2, pyMaxKey_first _ _ _ hpm⟩

/-- C7 witness: the quantile and counting part applied to the worked
example column. -/
theorem C7_outlier_iqr_witness :
    ∃ q1 q3, quantileLin (numsOf colC7) (1/4) = some q1 ∧
      quantileLin (numsOf colC7) (3/4) = some q3 ∧
      outlierCount colC7 = (numsOf colC7).countP (fun x =>
        decide (x < q1 - 3/2 * (q3 - q1)) || decide (q3 + 3/2 * (q3 - q1) < x)) :=
  C7_outlier_iqr.2.1 colC7 (by decide)

theorem tC8_firstParsed : firstParsed tC8 =
    some ("date", [Cell.date 20200101, Cell.date 20200101, Cell.date 20200102]) := by
  decide

theorem tC8_numericCols : numericCols tC8 =
    [⟨"y", ColKind.numeric, [Cell.num 10, Cell.num 20, Cell.num 30]⟩] := by
  decide

theorem tC8_trendRows :
    trendRows [Cell.date 20200101, Cell.date 20200101, Cell.date 20200102]
      [Cell.num 10, Cell.num 20, Cell.num 30] =
    [(20200101, 10), (20200101, 20), (20200102, 30)] := by
  with_unfolding_all decide

theorem tC8_groupMeans :
    groupMeans [(20200101, 10), (20200101, 20), (20200102, 30)] =
    [(20200101, 15), (20200102, 30)] := by
  with_unfolding_all decide

theorem tC8_timeTrend : timeTrend tC8 =
    some ("date", "y", [(20200101, 15), (20200102, 30)]) := by
  unfold timeTrend
  rw [tC8_firstParsed, tC8_numericCols]
  dsimp only
  rw [tC8_trendRows, tC8_groupMeans]

/-- C8: the time-trend insight takes the first candidate column (in
declaration order, among datetime and text columns) that fully parses,
skipping columns with any unparseable value and stopping at the first
success; it pairs that column with the first numeric column, drops
rows where either is missing, groups by date, averages the numeric
column per date, and emits the points in strictly ascending date
order.  It is "not applicable" exactly when no candidate parses or
there is no numeric column.  On the worked example the output is
[(2020-01-01, 15), (2020-01-02, 30)]. -/
theorem C8_time_trend :
    (∀ t : Table, timeTrend t = none ↔ (firstParsed t = none ∨ numericCols t = [])) ∧
    (∀ t : Table, ∀ dn yn : String, ∀ pts : List (Nat × ℚ),
      timeTrend t = some (dn, yn, pts) →
      ∃ c dcells y ys,
        (dtCandidates t).find? (fun c2 => (parsedCol c2).isSome) = some c ∧
        c.name = dn ∧ parsedCol c = some dcells ∧
        numericCols t = y :: ys ∧ yn = y.name ∧
        pts = groupMeans (trendRows dcells y.cells) ∧
        pts.Pairwise (fun p1 p2 => p1.1 < p2.1) ∧
        (∀ p ∈ pts, p.1 ∈ (trendRows dcells y.cells).map (fun r => r.1) ∧
          p.2 = (((trendRows dcells y.cells).filter (fun r => r.1 == p.1)).map (fun r => r.2)).sum /
            ((((((trendRows dcells y.cells).filter (fun r => r.1 == p.1)).map (fun r => r.2)).length : ℕ)) : ℚ)) ∧
        (∀ d ∈ (trendRows dcells y.cells).map (fun r => r.1), ∃ mv, (d, mv) ∈ pts)) ∧
    timeTrend tC8 = some ("date", "y", [(20200101, 15), (20200102, 30)]) := by
  refine ⟨?_, ?_, tC8_timeTrend⟩
  · intro t
    unfold timeTrend
    cases hfp : firstParsed t with
    | none => simp
    | some pr =>
        obtain ⟨dn0, dc0⟩ := pr
        cases hnc : numericCols t with
        | nil => simp
        | cons y ys => simp
  · intro t dn yn pts h
    unfold timeTrend at h
    cases hfp : firstParsed t with
    | none => rw [hfp] at h; cases h
    | some pr =>
        obtain ⟨dn0, dc0⟩ := pr
        rw [hfp] at h
        cases hnc : numericCols t with
        | nil => rw [hnc] at h; cases h
        | cons y ys =>
            rw [hnc] at h
            dsimp only at h
            injection h with h1
            injection h1 with hdn h2
            injection h2 with hyn hpts
            subst hdn
            subst hyn
            subst hpts
            obtain ⟨c, hc1, hc2⟩ := findSome_eq_find
              (fun c2 => (parsedCol c2).map (fun pc => (c2.name, pc))) (dtCandidates t)
              (dn0, dc0) hfp
            cases hpc : parsedCol c with
            | none => rw [hpc] at hc2; cases hc2
            | some pc =>
                rw [hpc] at hc2
                injection hc2 with h3
                injection h3 with hcn hpcd
                have hconv : (dtCandidates t).find?
                    (fun x => ((parsedCol x).map (fun pc2 => (x.name, pc2))).isSome) =
                    (dtCandidates t).find? (fun x => (parsedCol x).isSome) := by
                  apply find_congr
                  intro z _
                  cases parsedCol z <;> rfl
                refine ⟨c, dc0, y, ys, ?_, hcn, ?_, rfl, rfl, rfl,
                  groupMeans_sorted _, ?_, ?_⟩
                · rw [← hconv]; exact hc1
                · rw [hpc, hpcd]
                · intro p hp
                  obtain ⟨d0, m0⟩ := p
                  exact (groupMeans_mem _ d0 m0).mp hp
                · intro d hd
                  exact ⟨_, (groupMeans_mem _ d _).mpr ⟨hd, rfl⟩⟩

/-- C8 witness: the decomposition applied to the worked example. -/
theorem C8_time_trend_witness :
    ∃ c dcells y ys,
      (dtCandidates tC8).find? (fun c2 => (parsedCol c2).isSome) = some c ∧
      c.name = "date" ∧ parsedCol c = some dcells ∧
      numericCols tC8 = y :: ys ∧ "y" = y.name ∧
      [((20200101 : Nat), (15 : ℚ)), (20200102, 30)] = groupMeans (trendRows dcells y.cells) ∧
      ([((20200101 : Nat), (15 : ℚ)), (20200102, 30)]).Pairwise (fun p1 p2 => p1.1 < p2.1) ∧
      (∀ p ∈ [((20200101 : Nat), (15 : ℚ)), (20200102, 30)],
        p.1 ∈ (trendRows dcells y.cells).map (fun r => r.1) ∧
        p.2 = (((trendRows dcells y.cells).filter (fun r => r.1 == p.1)).map (fun r => r.2)).sum /
          ((((((trendRows dcells y.cells).filter (fun r => r.1 == p.1)).map (fun r => r.2)).length : ℕ)) : ℚ)) ∧
      (∀ d ∈ (trendRows dcells y.cells).map (fun r => r.1),
        ∃ mv, (d, mv) ∈ [((20200101 : Nat), (15 : ℚ)), (20200102, 30)]) :=
  C8_time_trend.2.1 tC8 "date" "y" [(20200101, 15), (20200102, 30)] tC8_timeTrend

/-- C9: the pipeline is deterministic: two runs of the script on the
identical input table return the identical report (and table). -/
theorem C9_deterministic (t : Table) (r1 r2 : Report × Table)
    (h1 : runScript t = Except.ok r1) (h2 : runScript t = Except.ok r2) : r1 = r2 :=
  Except.ok.inj (h1.symm.trans h2)

/-- The report the script produces on `tC4`. -/
def rC9 : Report :=
  { corrPair := some ("a", "c", 27/28)
    missingData := none
    imbalance := none
    outliers := some ("a", 0)
    trend := none }

theorem tC4_runScript : runScript tC4 = Except.ok (rC9, tC4) := by
  unfold runScript
  have h1 : topPairE tC4 = Except.ok ("a", "c", 27/28) := by with_unfolding_all decide
  have h2 : mostOutliersE tC4 = Except.ok ("a", 0) := by with_unfolding_all decide
  have h3 : missingInsight tC4 = none := by decide
  have h4 : imbalanceInsight tC4 = none := by decide
  have h5 : timeTrend tC4 = none := by decide
  have h6 : applyTrendMutation tC4 = tC4 := by decide
  rw [h1, h2, h3, h4, h5, h6]
  dsimp only
  rfl

/-- C9 witness: determinism applied to the concrete run on `tC4`. -/
theorem C9_deterministic_witness : ((rC9, tC4) : Report × Table) = (rC9, tC4) :=
  C9_deterministic tC4 (rC9, tC4) (rC9, tC4) tC4_runScript tC4_runScript

/-- C10: the outlier count of a column is a function of its non-missing
numeric values alone — a missing value satisfies neither strict bound
comparison — so the count equals the number of non-missing values
strictly outside the IQR fences and is unchanged by inserting any
number of missing cells anywhere in the column. -/
theorem C10_missing_never_outliers :
    (∀ cells : List Cell, outlierCount cells =
      match quantileLin (numsOf cells) (1/4), quantileLin (numsOf cells) (3/4) with
      | some q1, some q3 =>
          (numsOf cells).countP (fun x =>
            decide (x < q1 - 3/2 * (q3 - q1)) || decide (q3 + 3/2 * (q3 - q1) < x))
      | _, _ => 0) ∧
    (∀ l1 l2 : List Cell, ∀ k : Nat,
      outlierCount (l1 ++ List.replicate k Cell.missing ++ l2) = outlierCount (l1 ++ l2)) := by
  refine ⟨outlierCount_eq, ?_⟩
  intro l1 l2 k
  apply outlierCount_congr
  rw [numsOf_append, numsOf_append, numsOf_replicate_missing, List.append_nil, numsOf_append]

end InsightsApp
